import Mathlib

/-!
Shallow embedding of the py_boggle core: the trie dictionary
(`trie_dictionary.py`) and the board searches (`my_game_manager.py`).
Words and input lines are lists of characters; boards are a size together
with a letter function addressed by `(row, col)` integer coordinates.
-/

namespace Boggle

/-- Python's `str.strip`: drop leading and trailing whitespace. -/
def pyStrip (s : List Char) : List Char :=
  ((s.dropWhile Char.isWhitespace).reverse.dropWhile Char.isWhitespace).reverse

/-- Python's `str.lower`, character by character. -/
def pyLower (s : List Char) : List Char := s.map Char.toLower

/-- `TrieNode`: word flag plus an association list of children
(Python dict, keys unique, insertion-ordered). -/
inductive TrieNode : Type where
  | node (flag : Bool) (children : List (Char × TrieNode))

namespace TrieNode

def flag : TrieNode → Bool
  | .node w _ => w

def children : TrieNode → List (Char × TrieNode)
  | .node _ cs => cs

/-- A fresh `TrieNode()`: no children, flag unset. -/
def empty : TrieNode := .node false []

/-- Replace the binding for `c` (keeping its position, as a Python dict does)
or append a new binding at the end. -/
def setChild : List (Char × TrieNode) → Char → TrieNode → List (Char × TrieNode)
  | [], c, t => [(c, t)]
  | (c', t') :: cs, c, t =>
      if c' = c then (c, t) :: cs else (c', t') :: setChild cs c t

/-- The inner loop of `load_dictionary` for one (already stripped and
lowercased) word: walk/create the chain of children and set the final flag. -/
def insert : TrieNode → List Char → TrieNode
  | .node _ cs, [] => .node true cs
  | .node w cs, c :: rest =>
      let child := match cs.lookup c with
        | some t => t
        | none => TrieNode.empty
      .node w (setChild cs c (child.insert rest))

end TrieNode

namespace TrieDictionary

/-- `load_dictionary` over the lines of the (already read) file:
each line is stripped, lowercased, and inserted. -/
def load_dictionary (lines : List (List Char)) : TrieNode :=
  lines.foldl (fun t line => t.insert (pyLower (pyStrip line))) TrieNode.empty

/-- The character-walking loop of `traverse` (input already lowercased). -/
def traverseRaw : TrieNode → List Char → Option TrieNode
  | t, [] => some t
  | t, c :: rest =>
      match t.children.lookup c with
      | none => none
      | some t' => traverseRaw t' rest

/-- `traverse`: lowercase the prefix, then walk the trie. -/
def traverse (t : TrieNode) (p : List Char) : Option TrieNode :=
  traverseRaw t (pyLower p)

/-- `is_prefix`: the traversal reaches a node. -/
def is_prefix (t : TrieNode) (p : List Char) : Bool :=
  (traverse t p).isSome

/-- `contains`: the traversal reaches a node whose word flag is set. -/
def contains (t : TrieNode) (w : List Char) : Bool :=
  match traverse t w with
  | none => false
  | some n => n.flag

/-- Insertion step of the sort in `__iter__` (`sorted(children.items())`;
keys are unique, so comparing keys alone matches Python's tuple sort). -/
def insChild (p : Char × TrieNode) : List (Char × TrieNode) → List (Char × TrieNode)
  | [] => [p]
  | q :: qs => if p.1 ≤ q.1 then p :: q :: qs else q :: insChild p qs

/-- Sort a children association list by key. -/
def sortChildren : List (Char × TrieNode) → List (Char × TrieNode)
  | [] => []
  | p :: ps => insChild p (sortChildren ps)

mutual

/-- Height of a trie, bounding the recursion depth of `__iter__`. -/
def height : TrieNode → Nat
  | .node _ cs => heightL cs + 1

def heightL : List (Char × TrieNode) → Nat
  | [] => 0
  | (_, t) :: cs => max (height t) (heightL cs)

end

/-- The recursive generator inside `__iter__`: emit the current prefix when
the node's flag is set, then descend into the children in sorted key order.
`fuel` bounds the recursion depth; the value of any `fuel` at least the
height of the node is the value of the Python recursion (`enumAux_fuel`). -/
def enumAux : Nat → TrieNode → List Char → List (List Char)
  | 0, _, _ => []
  | fuel + 1, t, pre =>
      (if t.flag then [pre] else []) ++
      (sortChildren t.children).flatMap (fun p => enumAux fuel p.2 (pre ++ [p.1]))

/-- `__iter__`: every stored word, in sorted order, starting from the root
with the empty prefix. -/
def enum (t : TrieNode) : List (List Char) := enumAux (height t) t []

end TrieDictionary

/-- Strict lexicographic order on words (Python `<` on strings). -/
def lexLt : List Char → List Char → Bool
  | [], [] => false
  | [], _ :: _ => true
  | _ :: _, [] => false
  | x :: xs, y :: ys => x < y || (x = y && lexLt xs ys)

/-- The neighbor offsets of `my_game_manager.py`, in source order:
up, down, left, right, up-left, up-right, down-left, down-right. -/
def directions : List (Int × Int) :=
  [(-1, 0), (1, 0), (0, -1), (0, 1), (-1, -1), (-1, 1), (1, -1), (1, 1)]

/-- `SHORT = 3`, the scoring threshold. -/
def SHORT : Nat := 3

/-- A game board: its size and the letter at each `(row, col)` cell.
Only in-bounds cells are ever read by the code. -/
structure Board : Type where
  size : Nat
  letter : Int → Int → Char

/-- The bounds check `0 <= r < size and 0 <= c < size`. -/
def Board.inBounds (b : Board) (r c : Int) : Prop :=
  0 ≤ r ∧ r < (b.size : Int) ∧ 0 ≤ c ∧ c < (b.size : Int)

instance (b : Board) (r c : Int) : Decidable (b.inBounds r c) := by
  unfold Board.inBounds; infer_instance

/-- All board cells in row-major order (the `for row ... for col ...` loops). -/
def rowMajorCells (size : Nat) : List (Int × Int) :=
  (List.range size).flatMap (fun r : Nat =>
    (List.range size).map (fun c : Nat => ((r : Int), (c : Int))))

namespace Game

/-- Python truthiness of the `dfs` result inside `find_word_in_board`:
`None` and the empty list are falsy. -/
def truthy : Option (List (Int × Int)) → Bool
  | some (_ :: _) => true
  | _ => false

/-- The direction loop of the `dfs` in `find_word_in_board`: return the
first truthy result, else fall through (backtrack). -/
def firstTruthy : List (Option (List (Int × Int))) → Option (List (Int × Int))
  | [] => none
  | r :: rs => if truthy r then r else firstTruthy rs

/-- The `dfs` inside `find_word_in_board`. The remaining word suffix plays
the role of `word[index:]`; `path` is the accumulated path. -/
def fwbDfs (b : Board) : List Char → Int → Int → List (Int × Int) →
    Option (List (Int × Int))
  | [], _, _, path => some path
  | ch :: rest, row, col, path =>
      if ¬ b.inBounds row col ∨ (row, col) ∈ path then none
      else if b.letter row col ≠ ch then none
      else firstTruthy (directions.map (fun d =>
        fwbDfs b rest (row + d.1) (col + d.2) (path ++ [(row, col)])))

/-- The outer loop of `find_word_in_board`: start the dfs from every cell in
row-major order and return the first truthy result. -/
def fwbFirst (b : Board) (w : List Char) : List (Int × Int) →
    Option (List (Int × Int))
  | [] => none
  | rc :: cells =>
      let r := fwbDfs b w rc.1 rc.2 []
      if truthy r then r else fwbFirst b w cells

/-- `find_word_in_board`: lowercase the word, then search from every cell. -/
def find_word_in_board (b : Board) (word : List Char) :
    Option (List (Int × Int)) :=
  fwbFirst b (pyLower word) (rowMajorCells b.size)

/-- The `dfs` inside `dictionary_driven_search`, collecting found words.
The Python recursion terminates because each call adds a fresh cell to
`visited`; `fuel` makes that bound explicit and never runs out for the
top-level value `size * size` (`ddsDfs_fuel`). -/
def ddsDfs (b : Board) (t : TrieNode) :
    Nat → Int → Int → List Char → List (Int × Int) → List (List Char)
  | 0, _, _, _, _ => []
  | fuel + 1, row, col, cur, visited =>
      if ¬ TrieDictionary.is_prefix t cur then []
      else
        (if SHORT < cur.length ∧ TrieDictionary.contains t cur then [cur] else []) ++
        directions.flatMap (fun d =>
          let nr := row + d.1
          let nc := col + d.2
          if b.inBounds nr nc ∧ (nr, nc) ∉ visited then
            ddsDfs b t fuel nr nc (cur ++ [b.letter nr nc]) ((nr, nc) :: visited)
          else [])

/-- `dictionary_driven_search`: run the dfs from every cell (row-major),
seeded with that cell's letter and a visited set holding that cell. -/
def dictionary_driven_search (b : Board) (t : TrieNode) : List (List Char) :=
  (rowMajorCells b.size).flatMap (fun rc =>
    ddsDfs b t (b.size * b.size) rc.1 rc.2 [b.letter rc.1 rc.2] [(rc.1, rc.2)])

/-- The `dfs` inside `board_driven_search`: no prefix pruning, but an early
exit once the accumulated string is longer than `size * size`. -/
def bdsDfs (b : Board) (t : TrieNode) :
    Nat → Int → Int → List Char → List (Int × Int) → List (List Char)
  | 0, _, _, _, _ => []
  | fuel + 1, row, col, cur, visited =>
      (if SHORT < cur.length ∧ TrieDictionary.contains t cur then [cur] else []) ++
      (if (b.size * b.size : Nat) < cur.length then []
       else directions.flatMap (fun d =>
          let nr := row + d.1
          let nc := col + d.2
          if b.inBounds nr nc ∧ (nr, nc) ∉ visited then
            bdsDfs b t fuel nr nc (cur ++ [b.letter nr nc]) ((nr, nc) :: visited)
          else []))

/-- `board_driven_search`: run the unpruned dfs from every cell. -/
def board_driven_search (b : Board) (t : TrieNode) : List (List Char) :=
  (rowMajorCells b.size).flatMap (fun rc =>
    bdsDfs b t (b.size * b.size) rc.1 rc.2 [b.letter rc.1 rc.2] [(rc.1, rc.2)])

end Game

/-- `load_dictionary` with the file read made explicit: an unreadable source
is an error value which the method re-raises with a message naming the
file; a readable source yields its lines. -/
def load_dictionary_io (filename : String)
    (read : Except String (List (List Char))) : Except String TrieNode :=
  match read with
  | .error _ => .error ("Error opening or reading the file: " ++ filename)
  | .ok lines => .ok (TrieDictionary.load_dictionary lines)

/-- Two cells are 8-adjacent: they differ by one of the eight offsets. -/
def adjacentCells (p q : Int × Int) : Prop :=
  (q.1 - p.1, q.2 - p.2) ∈ directions

instance (p q : Int × Int) : Decidable (adjacentCells p q) := by
  unfold adjacentCells; infer_instance

/-- `chainFrom b r c visited w`: starting beside `(r, c)`, the word `w` can
be spelled by a chain of in-bounds cells, each a fresh neighbor of the
previous one (the continuation condition of every dfs in the file). -/
def chainFrom (b : Board) : Int → Int → List (Int × Int) → List Char → Prop
  | _, _, _, [] => True
  | r, c, visited, ch :: rest =>
      ∃ d ∈ directions,
        b.inBounds (r + d.1) (c + d.2) ∧ (r + d.1, c + d.2) ∉ visited ∧
        b.letter (r + d.1) (c + d.2) = ch ∧
        chainFrom b (r + d.1) (c + d.2) ((r + d.1, c + d.2) :: visited) rest

/-- Spec-side enumeration for the determinism claim: all complete paths for
the word suffix from one cell, children visited in the fixed direction
order, each success contributing its full path. -/
def specPathsFrom (b : Board) :
    List Char → Int → Int → List (Int × Int) → List (List (Int × Int))
  | [], _, _, path => [path]
  | ch :: rest, row, col, path =>
      if ¬ b.inBounds row col ∨ (row, col) ∈ path then []
      else if b.letter row col ≠ ch then []
      else directions.flatMap (fun d =>
        specPathsFrom b rest (row + d.1) (col + d.2) (path ++ [(row, col)]))

/-- Spec-side enumeration of every path spelling `w`, start cells in
row-major order.  The spec says `find_word_in_board` returns the first. -/
def specPaths (b : Board) (w : List Char) : List (List (Int × Int)) :=
  (rowMajorCells b.size).flatMap (fun rc => specPathsFrom b w rc.1 rc.2 [])

/-- Boards produced by `new_game` and `set_game` hold lowercased letters. -/
def Board.lowerCells (b : Board) : Prop :=
  ∀ r c : Int, b.inBounds r c → Char.toLower (b.letter r c) = b.letter r c

namespace TrieDictionary

/-- `traverseRaw` followed by the word-flag check (the un-lowercased core of
`contains`). -/
def containsRaw (t : TrieNode) (w : List Char) : Bool :=
  match traverseRaw t w with
  | none => false
  | some n => n.flag

mutual

/-- Well-formed trie: every children list binds each letter at most once
(automatic for a Python dict). -/
def WF : TrieNode → Prop
  | .node _ cs => (cs.map Prod.fst).Nodup ∧ WFL cs

def WFL : List (Char × TrieNode) → Prop
  | [] => True
  | (_, t) :: cs => WF t ∧ WFL cs

end

end TrieDictionary

/-- The spec's concrete scenario board `[["c","a"],["t","s"]]`. -/
def catsBoard : Board where
  size := 2
  letter := fun r c =>
    if r = 0 then (if c = 0 then 'c' else 'a')
    else (if c = 0 then 't' else 's')

/-- The spec's concrete dictionary: exactly "cat" and "cats". -/
def catsDict : TrieNode :=
  TrieDictionary.load_dictionary [['c', 'a', 't'], ['c', 'a', 't', 's']]

/-- A dictionary whose two words overlap on the board cell-for-cell. -/
def overlapDict : TrieNode :=
  TrieDictionary.load_dictionary [['c', 'a', 't', 's'], ['c', 'a', 's', 't']]

/-! ### Basic trie lemmas -/

namespace TrieDictionary

theorem traverseRaw_nil (t : TrieNode) : traverseRaw t [] = some t := rfl

theorem traverseRaw_cons (t : TrieNode) (c : Char) (rest : List Char) :
    traverseRaw t (c :: rest) =
      match t.children.lookup c with
      | none => none
      | some t' => traverseRaw t' rest := rfl

theorem traverseRaw_append (t : TrieNode) (u v : List Char) :
    traverseRaw t (u ++ v) = (traverseRaw t u).bind (fun n => traverseRaw n v) := by
  induction u generalizing t with
  | nil => simp [traverseRaw]
  | cons c cs ih =>
      simp only [List.cons_append, traverseRaw_cons]
      cases t.children.lookup c with
      | none => rfl
      | some t' => exact ih t'

theorem containsRaw_nil (t : TrieNode) : containsRaw t [] = t.flag := rfl

theorem containsRaw_cons (t : TrieNode) (c : Char) (v : List Char) :
    containsRaw t (c :: v) =
      match t.children.lookup c with
      | none => false
      | some t' => containsRaw t' v := by
  cases h : t.children.lookup c <;>
    simp only [containsRaw, traverseRaw_cons, h]

theorem containsRaw_empty (v : List Char) : containsRaw TrieNode.empty v = false := by
  cases v with
  | nil => rfl
  | cons c rest =>
      rw [containsRaw_cons]
      rfl

theorem contains_eq (t : TrieNode) (w : List Char) :
    contains t w = containsRaw t (pyLower w) := rfl

theorem is_prefix_eq (t : TrieNode) (p : List Char) :
    is_prefix t p = (traverseRaw t (pyLower p)).isSome := rfl

theorem lookup_cons (c k : Char) (t : TrieNode) (ps : List (Char × TrieNode)) :
    ((k, t) :: ps).lookup c = if c = k then some t else ps.lookup c := by
  by_cases h : c = k
  · subst h; simp [List.lookup]
  · have hb : (c == k) = false := by simp [h]
    simp [List.lookup, hb, h]

theorem lookup_setChild_self (cs : List (Char × TrieNode)) (c : Char) (t : TrieNode) :
    (TrieNode.setChild cs c t).lookup c = some t := by
  induction cs with
  | nil => simp [TrieNode.setChild, lookup_cons]
  | cons p ps ih =>
      obtain ⟨c', t'⟩ := p
      by_cases h : c' = c
      · subst h
        simp [TrieNode.setChild, lookup_cons]
      · rw [TrieNode.setChild, if_neg h, lookup_cons, if_neg (Ne.symm h)]
        exact ih

theorem lookup_setChild_ne (cs : List (Char × TrieNode)) (c c' : Char)
    (t : TrieNode) (h : c' ≠ c) :
    (TrieNode.setChild cs c t).lookup c' = cs.lookup c' := by
  induction cs with
  | nil => simp [TrieNode.setChild, lookup_cons, h]
  | cons p ps ih =>
      obtain ⟨c'', t''⟩ := p
      by_cases h2 : c'' = c
      · subst h2
        rw [TrieNode.setChild, if_pos rfl, lookup_cons, lookup_cons,
          if_neg h, if_neg h]
      · rw [TrieNode.setChild, if_neg h2, lookup_cons, lookup_cons]
        by_cases h3 : c' = c''
        · simp [h3]
        · simp [h3, ih]

theorem containsRaw_insert (t : TrieNode) (u v : List Char) :
    containsRaw (t.insert u) v = true ↔ (v = u ∨ containsRaw t v = true) := by
  induction u generalizing t v with
  | nil =>
      obtain ⟨w, cs⟩ := t
      cases v with
      | nil => simp [TrieNode.insert, containsRaw_nil, TrieNode.flag]
      | cons c v' =>
          rw [containsRaw_cons, containsRaw_cons]
          simp [TrieNode.insert, TrieNode.children]
  | cons c u' ih =>
      obtain ⟨w, cs⟩ := t
      cases v with
      | nil =>
          simp [TrieNode.insert, containsRaw_nil, TrieNode.flag]
      | cons c' v' =>
          rw [containsRaw_cons, containsRaw_cons]
          by_cases hc : c' = c
          · subst hc
            cases hl : cs.lookup c' with
            | none =>
                simp only [TrieNode.insert, hl, TrieNode.children,
                  lookup_setChild_self, ih, containsRaw_empty]
                simp
            | some child =>
                simp only [TrieNode.insert, hl, TrieNode.children,
                  lookup_setChild_self, ih]
                simp
          · have hne : (c' : Char) ≠ c := hc
            simp only [TrieNode.insert, TrieNode.children,
              lookup_setChild_ne _ _ _ _ hne]
            cases cs.lookup c' with
            | none => simp [hc]
            | some t' => simp [hc]

theorem containsRaw_foldl (lines : List (List Char)) (acc : TrieNode)
    (v : List Char) :
    containsRaw
        (lines.foldl (fun t line => t.insert (pyLower (pyStrip line))) acc) v = true
      ↔ (∃ line ∈ lines, v = pyLower (pyStrip line)) ∨ containsRaw acc v = true := by
  induction lines generalizing acc with
  | nil => simp
  | cons l ls ih =>
      simp only [List.foldl_cons, ih, containsRaw_insert, List.mem_cons]
      constructor
      · rintro (⟨line, hm, hv⟩ | hv | hv)
        · exact Or.inl ⟨line, Or.inr hm, hv⟩
        · exact Or.inl ⟨l, Or.inl rfl, hv⟩
        · exact Or.inr hv
      · rintro (⟨line, hm | hm, hv⟩ | hv)
        · subst hm; exact Or.inr (Or.inl hv)
        · exact Or.inl ⟨line, hm, hv⟩
        · exact Or.inr (Or.inr hv)

theorem containsRaw_load (lines : List (List Char)) (v : List Char) :
    containsRaw (load_dictionary lines) v = true
      ↔ ∃ line ∈ lines, v = pyLower (pyStrip line) := by
  rw [load_dictionary, containsRaw_foldl]
  simp [containsRaw_empty]

theorem containsRaw_isSome (t : TrieNode) (w : List Char)
    (h : containsRaw t w = true) : (traverseRaw t w).isSome = true := by
  unfold containsRaw at h
  cases hw : traverseRaw t w with
  | none => rw [hw] at h; exact absurd h (by simp)
  | some n => simp

theorem traverseRaw_isSome_of_append (t : TrieNode) (u v : List Char)
    (h : (traverseRaw t (u ++ v)).isSome = true) :
    (traverseRaw t u).isSome = true := by
  rw [traverseRaw_append] at h
  cases hu : traverseRaw t u with
  | none => rw [hu] at h; simp at h
  | some n => simp

theorem flag_insert_cons (t : TrieNode) (c : Char) (rest : List Char) :
    (t.insert (c :: rest)).flag = t.flag := by
  obtain ⟨w, cs⟩ := t; rfl

theorem flag_insert_nil (t : TrieNode) : (t.insert []).flag = true := by
  obtain ⟨w, cs⟩ := t; rfl

theorem flag_insert_of_flag (t : TrieNode) (w : List Char) (h : t.flag = true) :
    (t.insert w).flag = true := by
  cases w with
  | nil => exact flag_insert_nil t
  | cons c rest => rw [flag_insert_cons]; exact h

theorem flag_foldl (lines : List (List Char)) (acc : TrieNode)
    (h : acc.flag = true ∨ ∃ line ∈ lines, pyLower (pyStrip line) = []) :
    (lines.foldl (fun t line => t.insert (pyLower (pyStrip line))) acc).flag = true := by
  induction lines generalizing acc with
  | nil =>
      rcases h with h | ⟨l, hl, _⟩
      · exact h
      · cases hl
  | cons l ls ih =>
      simp only [List.foldl_cons]
      apply ih
      rcases h with h | ⟨l', hl', he⟩
      · exact Or.inl (flag_insert_of_flag _ _ h)
      · rcases List.mem_cons.mp hl' with rfl | hm
        · rw [he]; exact Or.inl (flag_insert_nil _)
        · exact Or.inr ⟨l', hm, he⟩

theorem enum_head_of_flag (t : TrieNode) (h : t.flag = true) :
    (enum t).head? = some [] := by
  obtain ⟨w, cs⟩ := t
  have hh : height (.node w cs) = heightL cs + 1 := by simp [height]
  rw [enum, hh, enumAux]
  have hw : TrieNode.flag (.node w cs) = w := rfl
  rw [hw] at h
  subst h
  simp [TrieNode.flag]

end TrieDictionary

theorem pyStrip_eq_nil (line : List Char)
    (h : ∀ ch ∈ line, ch.isWhitespace = true) : pyStrip line = [] := by
  unfold pyStrip
  have h1 : line.dropWhile Char.isWhitespace = [] :=
    List.dropWhile_eq_nil_iff.mpr (by simpa using h)
  rw [h1]
  rfl

theorem pyLower_append (u v : List Char) :
    pyLower (u ++ v) = pyLower u ++ pyLower v := by
  simp [pyLower]

/-! ### Claims about the dictionary -/

/-- C4: after `load_dictionary` ingests the word list, each loaded
(stripped) word satisfies `contains`, each non-empty prefix of it
satisfies `is_prefix`, and both queries are case-insensitive because
lowercasing is applied at insertion and at query time. -/
theorem claim_C4 (lines : List (List Char)) (line : List Char)
    (hline : line ∈ lines) :
    TrieDictionary.contains (TrieDictionary.load_dictionary lines) (pyStrip line) = true
    ∧ (∀ p, p ≠ [] → p <+: pyStrip line →
        TrieDictionary.is_prefix (TrieDictionary.load_dictionary lines) p = true)
    ∧ (∀ (t : TrieNode) (u v : List Char), pyLower u = pyLower v →
        TrieDictionary.contains t u = TrieDictionary.contains t v
        ∧ TrieDictionary.is_prefix t u = TrieDictionary.is_prefix t v) := by
  refine ⟨?_, ?_, ?_⟩
  · rw [TrieDictionary.contains_eq]
    exact (TrieDictionary.containsRaw_load _ _).mpr ⟨line, hline, rfl⟩
  · intro p _ hp
    have hcont : TrieDictionary.containsRaw (TrieDictionary.load_dictionary lines)
        (pyLower (pyStrip line)) = true :=
      (TrieDictionary.containsRaw_load _ _).mpr ⟨line, hline, rfl⟩
    have hs := TrieDictionary.containsRaw_isSome _ _ hcont
    obtain ⟨q, hq⟩ := hp
    rw [← hq, pyLower_append] at hs
    rw [TrieDictionary.is_prefix_eq]
    exact TrieDictionary.traverseRaw_isSome_of_append _ _ _ hs
  · intro t u v huv
    constructor
    · rw [TrieDictionary.contains_eq, TrieDictionary.contains_eq, huv]
    · rw [TrieDictionary.is_prefix_eq, TrieDictionary.is_prefix_eq, huv]

theorem claim_C4_witness :
    TrieDictionary.contains (TrieDictionary.load_dictionary [['c', 'a', 't']])
        (pyStrip ['c', 'a', 't']) = true
    ∧ (∀ p, p ≠ [] → p <+: pyStrip ['c', 'a', 't'] →
        TrieDictionary.is_prefix (TrieDictionary.load_dictionary [['c', 'a', 't']]) p = true)
    ∧ (∀ (t : TrieNode) (u v : List Char), pyLower u = pyLower v →
        TrieDictionary.contains t u = TrieDictionary.contains t v
        ∧ TrieDictionary.is_prefix t u = TrieDictionary.is_prefix t v) :=
  claim_C4 [['c', 'a', 't']] ['c', 'a', 't'] (by decide)

/-- C9: a blank (whitespace-only) line inserts the empty word: the root
node's word flag is set, `contains ""` is true, and the empty string is
the first word produced by enumeration. -/
theorem claim_C9 (lines : List (List Char))
    (h : ∃ line ∈ lines, ∀ ch ∈ line, ch.isWhitespace = true) :
    (TrieDictionary.load_dictionary lines).flag = true
    ∧ TrieDictionary.contains (TrieDictionary.load_dictionary lines) [] = true
    ∧ (TrieDictionary.enum (TrieDictionary.load_dictionary lines)).head? = some [] := by
  obtain ⟨line, hm, hws⟩ := h
  have hflag : (TrieDictionary.load_dictionary lines).flag = true := by
    rw [TrieDictionary.load_dictionary]
    exact TrieDictionary.flag_foldl _ _
      (Or.inr ⟨line, hm, by rw [pyStrip_eq_nil line hws]; rfl⟩)
  refine ⟨hflag, ?_, TrieDictionary.enum_head_of_flag _ hflag⟩
  rw [TrieDictionary.contains_eq]
  show TrieDictionary.containsRaw _ [] = true
  rw [TrieDictionary.containsRaw_nil]
  exact hflag

theorem claim_C9_witness :
    (TrieDictionary.load_dictionary [[' ']]).flag = true
    ∧ TrieDictionary.contains (TrieDictionary.load_dictionary [[' ']]) [] = true
    ∧ (TrieDictionary.enum (TrieDictionary.load_dictionary [[' ']])).head? = some [] :=
  claim_C9 [[' ']] ⟨[' '], by decide, by decide⟩

/-! ### Claims checked on the concrete scenario -/

/-- C2 as stated is false: on the scenario board with dictionary
{"cat", "cats"}, neither search reports "cat", because its length 3 does
not exceed `SHORT = 3`. -/
theorem claim_C2_counterexample :
    ['c', 'a', 't'] ∉ Game.dictionary_driven_search catsBoard catsDict
    ∧ ['c', 'a', 't'] ∉ Game.board_driven_search catsBoard catsDict := by
  decide

/-- C2 (amended): `find_word_in_board "cat"` returns `[(0,0),(0,1),(1,0)]`,
but the two searches both return exactly {"cats"}: "cats" is reachable
('s' at (1,1) is adjacent to 't' at (1,0)), while "cat" is excluded by the
`len > SHORT` scoring cutoff. -/
theorem claim_C2 :
    Game.find_word_in_board catsBoard ['c', 'a', 't'] = some [(0, 0), (0, 1), (1, 0)]
    ∧ Game.dictionary_driven_search catsBoard catsDict = [['c', 'a', 't', 's']]
    ∧ Game.board_driven_search catsBoard catsDict = [['c', 'a', 't', 's']] := by
  decide

/-- C10: locating the empty word returns `None` on every board: the inner
dfs returns the empty list, which every caller treats as falsy. -/
theorem claim_C10 (b : Board) : Game.find_word_in_board b [] = none := by
  rw [Game.find_word_in_board]
  show Game.fwbFirst b [] (rowMajorCells b.size) = none
  induction rowMajorCells b.size with
  | nil => rfl
  | cons rc cells ih => simp [Game.fwbFirst, Game.fwbDfs, Game.truthy, ih]

/-! ### Geometry of the board -/

theorem length_rowMajorCells (n : Nat) : (rowMajorCells n).length = n * n := by
  rw [rowMajorCells, List.length_flatMap]
  have h2 : (List.map (List.length ∘ fun r : Nat =>
      (List.range n).map (fun c : Nat => ((r : Int), (c : Int)))) (List.range n))
      = List.replicate n n := by
    rw [List.eq_replicate_iff]
    refine ⟨by rw [List.length_map, List.length_range], ?_⟩
    intro x hx
    simp only [List.mem_map] at hx
    obtain ⟨r, _, rfl⟩ := hx
    rw [Function.comp_apply, List.length_map, List.length_range]
  rw [h2, List.sum_replicate, smul_eq_mul]

theorem mem_rowMajorCells (n : Nat) (rc : Int × Int) :
    rc ∈ rowMajorCells n ↔
      0 ≤ rc.1 ∧ rc.1 < (n : Int) ∧ 0 ≤ rc.2 ∧ rc.2 < (n : Int) := by
  obtain ⟨r, c⟩ := rc
  simp only [rowMajorCells, List.mem_flatMap, List.mem_map, List.mem_range]
  constructor
  · rintro ⟨a, ha, b, hb, heq⟩
    rw [Prod.mk.injEq] at heq
    obtain ⟨h1, h2⟩ := heq
    subst h1; subst h2
    refine ⟨?_, ?_, ?_, ?_⟩ <;> omega
  · rintro ⟨h1, h2, h3, h4⟩
    refine ⟨r.toNat, by omega, c.toNat, by omega, ?_⟩
    rw [Prod.mk.injEq]
    exact ⟨by omega, by omega⟩

theorem inBounds_iff_mem_rowMajor (b : Board) (r c : Int) :
    b.inBounds r c ↔ (r, c) ∈ rowMajorCells b.size := by
  rw [mem_rowMajorCells]
  exact Iff.rfl

theorem nodup_subset_length_le {α : Type} [DecidableEq α] (l l' : List α)
    (h : l.Nodup) (hs : l ⊆ l') : l.length ≤ l'.length :=
  calc l.length = l.toFinset.card := (List.toFinset_card_of_nodup h).symm
  _ ≤ l'.toFinset.card := Finset.card_le_card (fun x hx => by
        rw [List.mem_toFinset] at hx ⊢; exact hs hx)
  _ ≤ l'.length := l'.toFinset_card_le

theorem visited_length_le (b : Board) (visited : List (Int × Int))
    (hnd : visited.Nodup) (hin : ∀ q ∈ visited, b.inBounds q.1 q.2) :
    visited.length ≤ b.size * b.size := by
  have hsub : visited ⊆ rowMajorCells b.size := by
    intro q hq
    have := (inBounds_iff_mem_rowMajor b q.1 q.2).mp (hin q hq)
    simpa using this
  have := nodup_subset_length_le visited (rowMajorCells b.size) hnd hsub
  rwa [length_rowMajorCells] at this

theorem flatMap_congrOn {α β : Type} (l : List α) (f g : α → List β)
    (h : ∀ a ∈ l, f a = g a) : l.flatMap f = l.flatMap g := by
  induction l with
  | nil => rfl
  | cons a as ih =>
      simp only [List.flatMap_cons]
      rw [h a (by simp), ih (fun x hx => h x (by simp [hx]))]

namespace TrieDictionary

theorem contains_append_false (t : TrieNode) (cur ext : List Char)
    (h : is_prefix t cur = false) : contains t (cur ++ ext) = false := by
  rw [is_prefix_eq] at h
  rw [contains_eq, pyLower_append]
  unfold containsRaw
  rw [traverseRaw_append]
  cases hu : traverseRaw t (pyLower cur) with
  | none => rfl
  | some n => rw [hu] at h; simp at h

theorem is_prefix_of_contains (t : TrieNode) (w : List Char)
    (h : contains t w = true) : is_prefix t w = true := by
  rw [contains_eq] at h
  rw [is_prefix_eq]
  exact containsRaw_isSome _ _ h

end TrieDictionary

/-! ### Equivalence of the two exhaustive searches (C1) -/

namespace Game

theorem mem_bdsDfs_shape (b : Board) (t : TrieNode) :
    ∀ (fuel : Nat) (r c : Int) (cur : List Char) (visited : List (Int × Int))
      (w : List Char), w ∈ bdsDfs b t fuel r c cur visited →
      TrieDictionary.contains t w = true ∧ ∃ ext, w = cur ++ ext := by
  intro fuel
  induction fuel with
  | zero => intro r c cur visited w hw; simp [bdsDfs] at hw
  | succ fuel ih =>
      intro r c cur visited w hw
      simp only [bdsDfs] at hw
      rcases List.mem_append.mp hw with h1 | h2
      · split at h1
        · next hcond =>
            rw [List.mem_singleton] at h1
            subst h1
            exact ⟨hcond.2, [], by simp⟩
        · simp at h1
      · split at h2
        · simp at h2
        · rw [List.mem_flatMap] at h2
          obtain ⟨d, _, hmem⟩ := h2
          split at hmem
          · obtain ⟨hcont, ext, hext⟩ := ih _ _ _ _ _ hmem
            refine ⟨hcont, b.letter (r + d.1) (c + d.2) :: ext, ?_⟩
            rw [hext, List.append_assoc]
            rfl
          · simp at hmem

theorem ddsDfs_eq_bdsDfs (b : Board) (t : TrieNode) :
    ∀ (fuel : Nat) (r c : Int) (cur : List Char) (visited : List (Int × Int)),
      visited.Nodup → (∀ q ∈ visited, b.inBounds q.1 q.2) →
      cur.length = visited.length →
      ddsDfs b t fuel r c cur visited = bdsDfs b t fuel r c cur visited := by
  intro fuel
  induction fuel with
  | zero => intros; rfl
  | succ fuel ih =>
      intro r c cur visited hnd hin hlen
      by_cases hp : TrieDictionary.is_prefix t cur = true
      · have hcut : ¬ ((b.size * b.size : Nat) < cur.length) := by
          have := visited_length_le b visited hnd hin
          omega
        simp only [ddsDfs, bdsDfs]
        rw [if_neg (by simp [hp]), if_neg hcut]
        congr 1
        apply flatMap_congrOn
        intro d _
        dsimp only
        by_cases hc : b.inBounds (r + d.1) (c + d.2) ∧ (r + d.1, c + d.2) ∉ visited
        · rw [if_pos hc, if_pos hc]
          apply ih
          · exact List.nodup_cons.mpr ⟨hc.2, hnd⟩
          · intro q hq
            rcases List.mem_cons.mp hq with rfl | hq'
            · exact hc.1
            · exact hin q hq'
          · simp [hlen]
        · rw [if_neg hc, if_neg hc]
      · have hp' : TrieDictionary.is_prefix t cur = false := by
          cases h : TrieDictionary.is_prefix t cur
          · rfl
          · exact absurd h hp
        simp only [ddsDfs]
        rw [if_pos (by simp [hp'])]
        symm
        rw [List.eq_nil_iff_forall_not_mem]
        intro w hw
        obtain ⟨hcont, ext, hext⟩ := mem_bdsDfs_shape b t _ r c cur visited w hw
        subst hext
        rw [TrieDictionary.contains_append_false t cur ext hp'] at hcont
        exact absurd hcont (by simp)

theorem dds_eq_bds (b : Board) (t : TrieNode) :
    dictionary_driven_search b t = board_driven_search b t := by
  unfold dictionary_driven_search board_driven_search
  apply flatMap_congrOn
  intro rc hrc
  apply ddsDfs_eq_bdsDfs
  · exact List.nodup_singleton _
  · intro q hq
    rw [List.mem_singleton] at hq
    subst hq
    have := (mem_rowMajorCells b.size rc).mp hrc
    exact ⟨this.1, this.2.1, this.2.2.1, this.2.2.2⟩
  · simp

end Game

/-- C1: on every board and dictionary, `dictionary_driven_search` and
`board_driven_search` return equal results: prefix pruning removes only
branches that can contain no dictionary word, and the depth cutoff of the
board-driven variant can never fire on a simple path. -/
theorem claim_C1 (b : Board) (t : TrieNode) :
    Game.dictionary_driven_search b t = Game.board_driven_search b t :=
  Game.dds_eq_bds b t

/-! ### Chains and the locate dfs -/

theorem chainFrom_congr (b : Board) :
    ∀ (w : List Char) (r c : Int) (v₁ v₂ : List (Int × Int)),
      (∀ q, q ∈ v₁ ↔ q ∈ v₂) →
      (chainFrom b r c v₁ w ↔ chainFrom b r c v₂ w) := by
  intro w
  induction w with
  | nil => intro r c v₁ v₂ _; exact Iff.rfl
  | cons ch rest ih =>
      intro r c v₁ v₂ hv
      simp only [chainFrom]
      refine exists_congr (fun d => and_congr_right fun _ => ?_)
      refine and_congr_right fun _ => ?_
      refine and_congr ((hv _).not) (and_congr_right fun _ => ?_)
      exact ih _ _ _ _ (fun q => by simp [hv q])

theorem chainFrom_lower (b : Board) (hb : b.lowerCells) :
    ∀ (w : List Char) (r c : Int) (v : List (Int × Int)),
      chainFrom b r c v w → pyLower w = w := by
  intro w
  induction w with
  | nil => intro r c v _; rfl
  | cons ch rest ih =>
      intro r c v h
      obtain ⟨d, _, hin, _, hlet, hch⟩ := h
      have h1 : Char.toLower ch = ch := by
        rw [← hlet]; exact hb _ _ hin
      show Char.toLower ch :: pyLower rest = ch :: rest
      rw [h1, ih _ _ _ hch]

namespace Game

theorem truthy_eq_true (x : Option (List (Int × Int))) :
    truthy x = true ↔ ∃ p, x = some p ∧ p ≠ [] := by
  cases x with
  | none => simp [truthy]
  | some p => cases p <;> simp [truthy]

theorem firstTruthy_mem (l : List (Option (List (Int × Int)))) (res : List (Int × Int))
    (h : firstTruthy l = some res) : some res ∈ l ∧ truthy (some res) = true := by
  induction l with
  | nil => exact absurd h (by simp [firstTruthy])
  | cons x xs ih =>
      rw [firstTruthy] at h
      by_cases hx : truthy x = true
      · rw [if_pos hx] at h
        subst h
        exact ⟨List.mem_cons_self _ _, hx⟩
      · rw [if_neg hx] at h
        obtain ⟨hm, ht⟩ := ih h
        exact ⟨List.mem_cons_of_mem _ hm, ht⟩

theorem firstTruthy_isSome_iff (l : List (Option (List (Int × Int)))) :
    (firstTruthy l).isSome = true ↔ ∃ x ∈ l, truthy x = true := by
  induction l with
  | nil => simp [firstTruthy]
  | cons x xs ih =>
      rw [firstTruthy]
      by_cases hx : truthy x = true
      · rw [if_pos hx]
        obtain ⟨p, rfl, -⟩ := (truthy_eq_true x).mp hx
        simp [hx]
      · rw [if_neg hx]
        rw [ih]
        constructor
        · rintro ⟨y, hy, ht⟩
          exact ⟨y, List.mem_cons_of_mem _ hy, ht⟩
        · rintro ⟨y, hy, ht⟩
          rcases List.mem_cons.mp hy with rfl | hy'
          · exact absurd ht hx
          · exact ⟨y, hy', ht⟩

theorem fwbDfs_sound (b : Board) :
    ∀ (w : List Char) (r c : Int) (path res : List (Int × Int)),
      fwbDfs b w r c path = some res →
      ∃ ext, res = path ++ ext
        ∧ (∀ q ∈ ext, b.inBounds q.1 q.2 ∧ q ∉ path)
        ∧ ext.Nodup
        ∧ List.Chain' adjacentCells ext
        ∧ ext.map (fun q => b.letter q.1 q.2) = w
        ∧ ((w = [] ∧ ext = []) ∨ (∃ ext', ext = (r, c) :: ext')) := by
  intro w
  induction w with
  | nil =>
      intro r c path res h
      rw [fwbDfs] at h
      injection h with h
      exact ⟨[], by simp [h], by simp, by simp, by simp, by simp, Or.inl ⟨rfl, rfl⟩⟩
  | cons ch rest ih =>
      intro r c path res h
      rw [fwbDfs] at h
      by_cases hg : ¬ b.inBounds r c ∨ (r, c) ∈ path
      · rw [if_pos hg] at h; exact absurd h (by simp)
      · rw [if_neg hg] at h
        push_neg at hg
        obtain ⟨hinb, hnp⟩ := hg
        by_cases hl : b.letter r c ≠ ch
        · rw [if_pos hl] at h; exact absurd h (by simp)
        · rw [if_neg hl] at h
          push_neg at hl
          obtain ⟨hm, -⟩ := firstTruthy_mem _ _ h
          rw [List.mem_map] at hm
          obtain ⟨d, hd, hf⟩ := hm
          obtain ⟨ext₁, hres, hprops, hnd, hchain, hmap, hhead⟩ :=
            ih (r + d.1) (c + d.2) (path ++ [(r, c)]) res hf
          refine ⟨(r, c) :: ext₁, ?_, ?_, ?_, ?_, ?_, Or.inr ⟨ext₁, rfl⟩⟩
          · rw [hres, List.append_assoc]; rfl
          · intro q hq
            rcases List.mem_cons.mp hq with rfl | hq'
            · exact ⟨hinb, hnp⟩
            · obtain ⟨hi, hn⟩ := hprops q hq'
              exact ⟨hi, fun hmem => hn (List.mem_append_left _ hmem)⟩
          · refine List.nodup_cons.mpr ⟨?_, hnd⟩
            intro hmem
            obtain ⟨-, hn⟩ := hprops _ hmem
            exact hn (List.mem_append_right _ (by simp))
          · rw [List.chain'_cons']
            refine ⟨?_, hchain⟩
            intro y hy
            rcases hhead with ⟨-, rfl⟩ | ⟨ext', rfl⟩
            · simp at hy
            · rw [List.head?_cons, Option.mem_some_iff] at hy
              subst hy
              show ((r + d.1) - r, (c + d.2) - c) ∈ directions
              have e1 : (r + d.1) - r = d.1 := by omega
              have e2 : (c + d.2) - c = d.2 := by omega
              rw [e1, e2]
              exact hd
          · rw [List.map_cons, hmap, hl]

theorem truthy_fwbDfs (b : Board) (ch : Char) (rest : List Char) (r c : Int)
    (path : List (Int × Int)) :
    truthy (fwbDfs b (ch :: rest) r c path) = (fwbDfs b (ch :: rest) r c path).isSome := by
  cases h : fwbDfs b (ch :: rest) r c path with
  | none => rfl
  | some res =>
      obtain ⟨ext, hres, -, -, -, -, hhead⟩ := fwbDfs_sound b _ _ _ _ _ h
      rcases hhead with ⟨hw, -⟩ | ⟨ext', rfl⟩
      · exact absurd hw (by simp)
      · subst hres
        have hne : path ++ (r, c) :: ext' ≠ [] := by simp
        rw [(truthy_eq_true _).mpr ⟨_, rfl, hne⟩]
        rfl

theorem fwbDfs_cons_isSome_iff (b : Board) :
    ∀ (rest : List Char) (ch : Char) (r c : Int) (path : List (Int × Int)),
      (fwbDfs b (ch :: rest) r c path).isSome = true ↔
        (b.inBounds r c ∧ (r, c) ∉ path ∧ b.letter r c = ch ∧
         chainFrom b r c (path ++ [(r, c)]) rest) := by
  intro rest
  induction rest with
  | nil =>
      intro ch r c path
      rw [fwbDfs]
      rcases Decidable.em (¬ b.inBounds r c ∨ (r, c) ∈ path) with hg | hg
      · rw [if_pos hg]
        constructor
        · intro hx; exact absurd hx (by simp)
        · rintro ⟨h1, h2, -, -⟩
          rcases hg with hg | hg
          exacts [absurd h1 hg, absurd hg h2]
      · rw [if_neg hg]
        push_neg at hg
        obtain ⟨hinb, hnm⟩ := hg
        by_cases hlet : b.letter r c ≠ ch
        · rw [if_pos hlet]
          constructor
          · intro hx; exact absurd hx (by simp)
          · rintro ⟨-, -, h3, -⟩
            exact absurd h3 hlet
        · rw [if_neg hlet]
          push_neg at hlet
          rw [firstTruthy_isSome_iff]
          constructor
          · intro _
            exact ⟨hinb, hnm, hlet, trivial⟩
          · intro _
            refine ⟨some (path ++ [(r, c)]), ?_, ?_⟩
            · rw [List.mem_map]
              exact ⟨(-1, 0), by simp [directions], by rw [fwbDfs]⟩
            · exact (truthy_eq_true _).mpr ⟨_, rfl, by simp⟩
  | cons ch' rest' ih =>
      intro ch r c path
      rw [fwbDfs]
      rcases Decidable.em (¬ b.inBounds r c ∨ (r, c) ∈ path) with hg | hg
      · rw [if_pos hg]
        constructor
        · intro hx; exact absurd hx (by simp)
        · rintro ⟨h1, h2, -, -⟩
          rcases hg with hg | hg
          exacts [absurd h1 hg, absurd hg h2]
      · rw [if_neg hg]
        push_neg at hg
        obtain ⟨hinb, hnm⟩ := hg
        by_cases hlet : b.letter r c ≠ ch
        · rw [if_pos hlet]
          constructor
          · intro hx; exact absurd hx (by simp)
          · rintro ⟨-, -, h3, -⟩
            exact absurd h3 hlet
        · rw [if_neg hlet]
          push_neg at hlet
          rw [firstTruthy_isSome_iff]
          constructor
          · rintro ⟨x, hx, ht⟩
            rw [List.mem_map] at hx
            obtain ⟨d, hd, rfl⟩ := hx
            rw [truthy_fwbDfs] at ht
            obtain ⟨h1, h2, h3, h4⟩ := (ih ch' _ _ _).mp ht
            refine ⟨hinb, hnm, hlet, ?_⟩
            show ∃ d ∈ directions, _
            refine ⟨d, hd, h1, h2, h3, ?_⟩
            refine (chainFrom_congr b rest' _ _ _ _ (fun q => ?_)).mp h4
            simp only [List.mem_append, List.mem_cons, List.mem_singleton,
              List.not_mem_nil, or_false]
            tauto
          · rintro ⟨-, -, -, hchain⟩
            obtain ⟨d, hd, h1, h2, h3, h4⟩ := hchain
            refine ⟨fwbDfs b (ch' :: rest') (r + d.1) (c + d.2) (path ++ [(r, c)]),
              List.mem_map_of_mem _ hd, ?_⟩
            rw [truthy_fwbDfs, ih]
            refine ⟨h1, h2, h3, ?_⟩
            refine (chainFrom_congr b rest' _ _ _ _ (fun q => ?_)).mp h4
            simp only [List.mem_append, List.mem_cons, List.mem_singleton,
              List.not_mem_nil, or_false]
            tauto

theorem fwbFirst_isSome_iff (b : Board) (v : List Char) :
    ∀ cells, (fwbFirst b v cells).isSome = true ↔
      ∃ rc ∈ cells, truthy (fwbDfs b v rc.1 rc.2 []) = true := by
  intro cells
  induction cells with
  | nil => simp [fwbFirst]
  | cons rc cells ih =>
      show (if truthy (fwbDfs b v rc.1 rc.2 []) then fwbDfs b v rc.1 rc.2 []
        else fwbFirst b v cells).isSome = true ↔ _
      by_cases ht : truthy (fwbDfs b v rc.1 rc.2 []) = true
      · rw [if_pos ht]
        constructor
        · intro _
          exact ⟨rc, List.mem_cons_self _ _, ht⟩
        · intro _
          obtain ⟨p, hp, -⟩ := (truthy_eq_true _).mp ht
          rw [hp]
          rfl
      · rw [if_neg ht, ih]
        constructor
        · rintro ⟨q, hq, hqt⟩
          exact ⟨q, List.mem_cons_of_mem _ hq, hqt⟩
        · rintro ⟨q, hq, hqt⟩
          rcases List.mem_cons.mp hq with rfl | hq'
          · exact absurd hqt ht
          · exact ⟨q, hq', hqt⟩

theorem mem_bdsDfs_chain (b : Board) (t : TrieNode) :
    ∀ (fuel : Nat) (r c : Int) (cur : List Char) (visited : List (Int × Int))
      (w : List Char), w ∈ bdsDfs b t fuel r c cur visited →
      SHORT < w.length ∧ TrieDictionary.contains t w = true ∧
        ∃ ext, w = cur ++ ext ∧ chainFrom b r c visited ext := by
  intro fuel
  induction fuel with
  | zero => intro r c cur visited w hw; simp [bdsDfs] at hw
  | succ fuel ih =>
      intro r c cur visited w hw
      simp only [bdsDfs] at hw
      rcases List.mem_append.mp hw with h1 | h2
      · split at h1
        · next hcond =>
            rw [List.mem_singleton] at h1
            subst h1
            exact ⟨hcond.1, hcond.2, [], by simp, trivial⟩
        · simp at h1
      · split at h2
        · simp at h2
        · rw [List.mem_flatMap] at h2
          obtain ⟨d, hd, hmem⟩ := h2
          split at hmem
          · next hcond =>
              obtain ⟨hlen, hcont, ext, hext, hchain⟩ := ih _ _ _ _ _ hmem
              refine ⟨hlen, hcont, b.letter (r + d.1) (c + d.2) :: ext, ?_, ?_⟩
              · rw [hext, List.append_assoc]; rfl
              · exact ⟨d, hd, hcond.1, hcond.2, rfl, hchain⟩
          · simp at hmem

theorem chainFrom_length_le (b : Board) :
    ∀ (ext : List Char) (r c : Int) (visited : List (Int × Int)),
      chainFrom b r c visited ext → visited.Nodup →
      (∀ q ∈ visited, b.inBounds q.1 q.2) →
      ext.length + visited.length ≤ b.size * b.size := by
  intro ext
  induction ext with
  | nil =>
      intro r c visited _ hnd hin
      simpa using visited_length_le b visited hnd hin
  | cons ch ext' ih =>
      intro r c visited hchain hnd hin
      obtain ⟨d, _, h1, h2, _, h4⟩ := hchain
      have := ih (r + d.1) (c + d.2) ((r + d.1, c + d.2) :: visited) h4
        (List.nodup_cons.mpr ⟨h2, hnd⟩)
        (fun q hq => by
          rcases List.mem_cons.mp hq with rfl | hq'
          exacts [h1, hin q hq'])
      simp only [List.length_cons] at this ⊢
      omega

theorem mem_bdsDfs_of_chain (b : Board) (t : TrieNode) :
    ∀ (ext : List Char) (fuel : Nat) (r c : Int) (cur : List Char)
      (visited : List (Int × Int)),
      chainFrom b r c visited ext →
      visited.Nodup → (∀ q ∈ visited, b.inBounds q.1 q.2) →
      cur.length = visited.length →
      ext.length < fuel →
      SHORT < (cur ++ ext).length →
      TrieDictionary.contains t (cur ++ ext) = true →
      (cur ++ ext) ∈ bdsDfs b t fuel r c cur visited := by
  intro ext
  induction ext with
  | nil =>
      intro fuel r c cur visited _ hnd hin hlen hfuel hshort hcont
      cases fuel with
      | zero => exact absurd hfuel (by omega)
      | succ f =>
          simp only [bdsDfs]
          apply List.mem_append_left
          rw [if_pos ⟨by simpa using hshort, by simpa using hcont⟩]
          simp
  | cons ch ext' ih =>
      intro fuel r c cur visited hchain hnd hin hlen hfuel hshort hcont
      obtain ⟨d, hd, h1, h2, h3, h4⟩ := hchain
      cases fuel with
      | zero => exact absurd hfuel (by omega)
      | succ f =>
          simp only [bdsDfs]
          apply List.mem_append_right
          have hcut : ¬ ((b.size * b.size : Nat) < cur.length) := by
            have := visited_length_le b visited hnd hin
            omega
          rw [if_neg hcut, List.mem_flatMap]
          refine ⟨d, hd, ?_⟩
          rw [if_pos ⟨h1, h2⟩]
          have hsplit : cur ++ ch :: ext'
              = (cur ++ [b.letter (r + d.1) (c + d.2)]) ++ ext' := by
            rw [← h3, List.append_assoc]
            rfl
          rw [hsplit]
          apply ih f (r + d.1) (c + d.2) _ _ h4
          · exact List.nodup_cons.mpr ⟨h2, hnd⟩
          · intro q hq
            rcases List.mem_cons.mp hq with rfl | hq'
            exacts [h1, hin q hq']
          · simp [hlen]
          · simp only [List.length_cons] at hfuel
            omega
          · rw [← hsplit]
            exact hshort
          · rw [← hsplit]
            exact hcont

theorem mem_bds_iff (b : Board) (t : TrieNode) (w : List Char) :
    w ∈ board_driven_search b t ↔
      (SHORT < w.length ∧ TrieDictionary.contains t w = true ∧
        ∃ rc ∈ rowMajorCells b.size, ∃ ext,
          w = b.letter rc.1 rc.2 :: ext ∧ chainFrom b rc.1 rc.2 [rc] ext) := by
  unfold board_driven_search
  rw [List.mem_flatMap]
  constructor
  · rintro ⟨rc, hrc, hmem⟩
    obtain ⟨hlen, hcont, ext, hext, hchain⟩ := mem_bdsDfs_chain b t _ _ _ _ _ _ hmem
    exact ⟨hlen, hcont, rc, hrc, ext, by simpa using hext, hchain⟩
  · rintro ⟨hlen, hcont, rc, hrc, ext, hext, hchain⟩
    refine ⟨rc, hrc, ?_⟩
    have hin : ∀ q ∈ [((rc.1 : Int), (rc.2 : Int))], b.inBounds q.1 q.2 := by
      intro q hq
      rw [List.mem_singleton] at hq
      subst hq
      have := (mem_rowMajorCells b.size rc).mp hrc
      exact ⟨this.1, this.2.1, this.2.2.1, this.2.2.2⟩
    have hfuel : ext.length < b.size * b.size := by
      have := chainFrom_length_le b ext rc.1 rc.2 [rc] hchain
        (List.nodup_singleton _) hin
      simp only [List.length_singleton] at this
      omega
    have hw : w = [b.letter rc.1 rc.2] ++ ext := by simpa using hext
    rw [hw]
    apply mem_bdsDfs_of_chain b t ext _ rc.1 rc.2 _ _ hchain
      (List.nodup_singleton _) hin (by simp) hfuel
    · rw [← hw]; exact hlen
    · rw [← hw]; exact hcont

theorem fwbFirst_eq_some (b : Board) (v : List Char) :
    ∀ cells res, fwbFirst b v cells = some res →
      ∃ rc ∈ cells, fwbDfs b v rc.1 rc.2 [] = some res := by
  intro cells
  induction cells with
  | nil => intro res h; exact absurd h (by simp [fwbFirst])
  | cons rc cells ih =>
      intro res h
      rw [show fwbFirst b v (rc :: cells) =
        (if truthy (fwbDfs b v rc.1 rc.2 []) then fwbDfs b v rc.1 rc.2 []
          else fwbFirst b v cells) from rfl] at h
      by_cases ht : truthy (fwbDfs b v rc.1 rc.2 []) = true
      · rw [if_pos ht] at h
        exact ⟨rc, List.mem_cons_self _ _, h⟩
      · rw [if_neg ht] at h
        obtain ⟨q, hq, hh⟩ := ih res h
        exact ⟨q, List.mem_cons_of_mem _ hq, hh⟩

end Game

theorem locate_ne_none_iff (b : Board) (word : List Char) :
    Game.find_word_in_board b word ≠ none ↔
      ∃ ch rest, pyLower word = ch :: rest ∧
        ∃ rc ∈ rowMajorCells b.size,
          b.inBounds rc.1 rc.2 ∧ b.letter rc.1 rc.2 = ch ∧
          chainFrom b rc.1 rc.2 [rc] rest := by
  rw [Option.ne_none_iff_isSome]
  rw [show Game.find_word_in_board b word
    = Game.fwbFirst b (pyLower word) (rowMajorCells b.size) from rfl]
  rw [Game.fwbFirst_isSome_iff]
  cases hv : pyLower word with
  | nil =>
      constructor
      · rintro ⟨rc, -, ht⟩
        rw [show Game.fwbDfs b [] rc.1 rc.2 [] = some [] from rfl] at ht
        exact absurd ht (by simp [Game.truthy])
      · rintro ⟨ch, rest, habs, -⟩
        exact absurd habs (by simp)
  | cons ch rest =>
      constructor
      · rintro ⟨rc, hrc, ht⟩
        rw [Game.truthy_fwbDfs, Game.fwbDfs_cons_isSome_iff] at ht
        obtain ⟨h1, -, h3, h4⟩ := ht
        exact ⟨ch, rest, rfl, rc, hrc, h1, h3, by simpa using h4⟩
      · rintro ⟨ch', rest', heq, rc, hrc, h1, h3, h4⟩
        rw [List.cons.injEq] at heq
        obtain ⟨rfl, rfl⟩ := heq
        refine ⟨rc, hrc, ?_⟩
        rw [Game.truthy_fwbDfs, Game.fwbDfs_cons_isSome_iff]
        exact ⟨h1, by simp, h3, by simpa using h4⟩

/-- C3 as stated is false at a concrete input: "cast" is spellable on the
scenario board, so `find_word_in_board` returns a path, yet "cast" is in
no dictionary word and so is absent from the board-driven result. -/
theorem claim_C3_counterexample :
    Game.find_word_in_board catsBoard ['c', 'a', 's', 't'] ≠ none
    ∧ ['c', 'a', 's', 't'] ∉ Game.board_driven_search catsBoard catsDict := by
  decide

/-- C3 (amended): on boards with lowercase letters (the only ones the game
builds), `w` is in `board_driven_search` iff `w` is lowercase, longer than
`SHORT`, a dictionary word, and `find_word_in_board` finds it — locate alone
also succeeds on non-dictionary or short words, which is what falsifies the
plain iff.  Every returned path consists of in-bounds, pairwise-distinct,
consecutively 8-adjacent cells spelling the lowercased word exactly. -/
theorem claim_C3 (b : Board) (t : TrieNode) (hb : b.lowerCells) :
    (∀ w, w ∈ Game.board_driven_search b t ↔
        (pyLower w = w ∧ SHORT < w.length ∧ TrieDictionary.contains t w = true
          ∧ Game.find_word_in_board b w ≠ none))
    ∧ (∀ word p, Game.find_word_in_board b word = some p →
        p.Nodup ∧ (∀ q ∈ p, b.inBounds q.1 q.2) ∧ List.Chain' adjacentCells p
          ∧ p.map (fun q => b.letter q.1 q.2) = pyLower word) := by
  constructor
  · intro w
    rw [Game.mem_bds_iff]
    constructor
    · rintro ⟨hlen, hcont, rc, hrc, ext, hext, hchain⟩
      have hinb : b.inBounds rc.1 rc.2 := by
        have := (mem_rowMajorCells b.size rc).mp hrc
        exact ⟨this.1, this.2.1, this.2.2.1, this.2.2.2⟩
      have hlow : pyLower w = w := by
        rw [hext]
        show Char.toLower (b.letter rc.1 rc.2) :: pyLower ext = _
        rw [hb _ _ hinb, chainFrom_lower b hb ext _ _ _ hchain]
      refine ⟨hlow, hlen, hcont, ?_⟩
      rw [locate_ne_none_iff]
      exact ⟨b.letter rc.1 rc.2, ext, by rw [hlow, hext], rc, hrc, hinb, rfl, hchain⟩
    · rintro ⟨hlow, hlen, hcont, hne⟩
      rw [locate_ne_none_iff] at hne
      obtain ⟨ch, rest, heq, rc, hrc, h1, h3, h4⟩ := hne
      rw [hlow] at heq
      refine ⟨hlen, hcont, rc, hrc, rest, ?_, h4⟩
      rw [heq, h3]
  · intro word p hp
    obtain ⟨rc, hrc, hdfs⟩ := Game.fwbFirst_eq_some b (pyLower word) _ _ hp
    obtain ⟨ext, hres, hprops, hnd, hchain, hmap, -⟩ :=
      Game.fwbDfs_sound b _ _ _ _ _ hdfs
    rw [List.nil_append] at hres
    subst hres
    exact ⟨hnd, fun q hq => (hprops q hq).1, hchain, hmap⟩

theorem claim_C3_witness :
    catsBoard.lowerCells ∧
    ((∀ w, w ∈ Game.board_driven_search catsBoard catsDict ↔
        (pyLower w = w ∧ SHORT < w.length
          ∧ TrieDictionary.contains catsDict w = true
          ∧ Game.find_word_in_board catsBoard w ≠ none))
    ∧ (∀ word p, Game.find_word_in_board catsBoard word = some p →
        p.Nodup ∧ (∀ q ∈ p, catsBoard.inBounds q.1 q.2)
          ∧ List.Chain' adjacentCells p
          ∧ p.map (fun q => catsBoard.letter q.1 q.2) = pyLower word)) := by
  have hb : catsBoard.lowerCells := by
    intro r c _
    simp only [catsBoard]
    split_ifs <;> decide
  exact ⟨hb, claim_C3 catsBoard catsDict hb⟩

/-! ### Determinism of locate (C6) -/

theorem specPathsFrom_extend (b : Board) :
    ∀ (w : List Char) (r c : Int) (path p : List (Int × Int)),
      p ∈ specPathsFrom b w r c path →
      ∃ ext, p = path ++ ext ∧ (w ≠ [] → ext ≠ []) := by
  intro w
  induction w with
  | nil =>
      intro r c path p hp
      rw [specPathsFrom, List.mem_singleton] at hp
      subst hp
      exact ⟨[], by simp, fun h => absurd rfl h⟩
  | cons ch rest ih =>
      intro r c path p hp
      rw [specPathsFrom] at hp
      split at hp
      · simp at hp
      · split at hp
        · simp at hp
        · rw [List.mem_flatMap] at hp
          obtain ⟨d, _, hmem⟩ := hp
          obtain ⟨ext₁, hres, -⟩ := ih _ _ _ _ hmem
          refine ⟨(r, c) :: ext₁, ?_, fun _ => by simp⟩
          rw [hres, List.append_assoc]
          rfl

theorem firstTruthy_map_eq_head {α : Type}
    (f : α → Option (List (Int × Int))) (g : α → List (List (Int × Int))) :
    ∀ ds : List α, (∀ d ∈ ds, f d = (g d).head? ∧ ∀ p ∈ g d, p ≠ []) →
      Game.firstTruthy (ds.map f) = (ds.flatMap g).head? := by
  intro ds
  induction ds with
  | nil => intro _; rfl
  | cons d ds ih =>
      intro h
      obtain ⟨hfd, hne⟩ := h d (List.mem_cons_self _ _)
      simp only [List.map_cons, List.flatMap_cons, Game.firstTruthy]
      cases hgd : g d with
      | nil =>
          rw [hgd] at hfd
          rw [hfd]
          rw [if_neg (by simp [Game.truthy])]
          rw [List.nil_append]
          exact ih (fun x hx => h x (List.mem_cons_of_mem _ hx))
      | cons p ps =>
          rw [hgd] at hfd hne
          rw [hfd, List.head?_cons]
          have hp : p ≠ [] := hne p (List.mem_cons_self _ _)
          rw [if_pos (by
            rw [Game.truthy_eq_true]
            exact ⟨p, rfl, hp⟩)]
          rw [List.cons_append, List.head?_cons]

theorem fwbDfs_eq_specHead (b : Board) :
    ∀ (w : List Char) (r c : Int) (path : List (Int × Int)),
      Game.fwbDfs b w r c path = (specPathsFrom b w r c path).head? := by
  intro w
  induction w with
  | nil => intro r c path; rfl
  | cons ch rest ih =>
      intro r c path
      rw [Game.fwbDfs, specPathsFrom]
      rcases Decidable.em (¬ b.inBounds r c ∨ (r, c) ∈ path) with hg | hg
      · rw [if_pos hg, if_pos hg]; rfl
      · rw [if_neg hg, if_neg hg]
        by_cases hlet : b.letter r c ≠ ch
        · rw [if_pos hlet, if_pos hlet]; rfl
        · rw [if_neg hlet, if_neg hlet]
          apply firstTruthy_map_eq_head
          intro d _
          refine ⟨ih _ _ _, ?_⟩
          intro p hp
          obtain ⟨ext, hres, -⟩ := specPathsFrom_extend b _ _ _ _ _ hp
          rw [hres]
          simp

theorem fwbFirst_eq_firstTruthy (b : Board) (v : List Char) :
    ∀ cells, Game.fwbFirst b v cells
      = Game.firstTruthy (cells.map (fun rc => Game.fwbDfs b v rc.1 rc.2 [])) := by
  intro cells
  induction cells with
  | nil => rfl
  | cons rc cells ih =>
      show (if Game.truthy (Game.fwbDfs b v rc.1 rc.2 []) then Game.fwbDfs b v rc.1 rc.2 []
        else Game.fwbFirst b v cells) = _
      rw [List.map_cons, Game.firstTruthy, ih]

theorem locate_eq_specHead (b : Board) (word : List Char)
    (h : pyLower word ≠ []) :
    Game.find_word_in_board b word = (specPaths b (pyLower word)).head? := by
  rw [show Game.find_word_in_board b word
    = Game.fwbFirst b (pyLower word) (rowMajorCells b.size) from rfl]
  rw [specPaths, fwbFirst_eq_firstTruthy]
  apply firstTruthy_map_eq_head
  intro rc _
  refine ⟨fwbDfs_eq_specHead b _ _ _ _, ?_⟩
  intro p hp
  obtain ⟨ext, hres, hne⟩ := specPathsFrom_extend b _ _ _ _ _ hp
  rw [hres, List.nil_append]
  exact hne h

/-- C6: `find_word_in_board` is deterministic: it returns exactly the head
of the list of all paths produced by depth-first exploration with starting
cells in row-major order and neighbors in the fixed source order up, down,
left, right, up-left, up-right, down-left, down-right. -/
theorem claim_C6 (b : Board) (word : List Char) (h : word ≠ []) :
    Game.find_word_in_board b word = (specPaths b (pyLower word)).head? :=
  locate_eq_specHead b word (by simpa [pyLower] using h)

theorem claim_C6_witness :
    (['c', 'a', 't'] : List Char) ≠ []
    ∧ Game.find_word_in_board catsBoard ['c', 'a', 't']
        = (specPaths catsBoard (pyLower ['c', 'a', 't'])).head? :=
  ⟨by decide, claim_C6 catsBoard ['c', 'a', 't'] (by decide)⟩

/-! ### Error handling (C7) -/

/-- C7: the loader propagates the read error (and only that error), while
every query is total: `contains` answers false rather than failing when the
prefix walk fails, `find_word_in_board` answers `None` when no path exists,
and both searches answer the empty set when the dictionary matches
nothing. -/
theorem claim_C7 :
    (∀ (fname : String) (e : String),
        load_dictionary_io fname (.error e)
          = .error ("Error opening or reading the file: " ++ fname))
    ∧ (∀ (fname : String) (lines : List (List Char)),
        load_dictionary_io fname (.ok lines)
          = .ok (TrieDictionary.load_dictionary lines))
    ∧ (∀ (t : TrieNode) (w : List Char),
        TrieDictionary.is_prefix t w = false → TrieDictionary.contains t w = false)
    ∧ (∀ (b : Board) (word : List Char),
        specPaths b (pyLower word) = [] → Game.find_word_in_board b word = none)
    ∧ (∀ (b : Board) (t : TrieNode),
        (∀ u, TrieDictionary.contains t u = false) →
        Game.dictionary_driven_search b t = [] ∧ Game.board_driven_search b t = []) := by
  refine ⟨fun _ _ => rfl, fun _ _ => rfl, ?_, ?_, ?_⟩
  · intro t w h
    cases hcw : TrieDictionary.contains t w with
    | false => rfl
    | true =>
        have := TrieDictionary.is_prefix_of_contains t w hcw
        rw [h] at this
        exact absurd this (by simp)
  · intro b word hsp
    by_cases hw : pyLower word = []
    · rw [hw] at hsp
      have hcells : rowMajorCells b.size = [] := by
        cases hc : rowMajorCells b.size with
        | nil => rfl
        | cons rc cells =>
            rw [specPaths, hc] at hsp
            simp [specPathsFrom] at hsp
      rw [show Game.find_word_in_board b word
        = Game.fwbFirst b (pyLower word) (rowMajorCells b.size) from rfl, hcells]
      rfl
    · rw [locate_eq_specHead b word hw, hsp]
      rfl
  · intro b t hc
    have hbds : Game.board_driven_search b t = [] := by
      rw [List.eq_nil_iff_forall_not_mem]
      intro w hw
      obtain ⟨-, hcont, -⟩ := (Game.mem_bds_iff b t w).mp hw
      rw [hc w] at hcont
      exact absurd hcont (by simp)
    exact ⟨by rw [Game.dds_eq_bds, hbds], hbds⟩

/-! ### Branch-scoped visited sets (C8) -/

theorem mem_ite_nil_right {α : Type} (cond : Prop) [Decidable cond]
    (X : List α) (w : α) : (w ∈ if cond then X else []) ↔ (cond ∧ w ∈ X) := by
  split_ifs with h <;> simp [h]

theorem mem_ite_nil_left {α : Type} (cond : Prop) [Decidable cond]
    (X : List α) (w : α) : (w ∈ if cond then [] else X) ↔ (¬ cond ∧ w ∈ X) := by
  split_ifs with h <;> simp [h]

/-- C8: in both searches the visited set is branch-scoped: one unfolding of
either dfs shows that each neighbor's recursive call receives exactly the
parent's `visited` extended with that neighbor alone, so sibling branches
never see each other's marks — and consequently two different found words
can use the same cells, as "cats" and "cast" do on the scenario board. -/
theorem claim_C8 :
    (∀ (b : Board) (t : TrieNode) (fuel : Nat) (r c : Int) (cur : List Char)
        (visited : List (Int × Int)) (w : List Char),
      w ∈ Game.bdsDfs b t (fuel + 1) r c cur visited ↔
        ((SHORT < cur.length ∧ TrieDictionary.contains t cur = true ∧ w = cur)
          ∨ (¬ ((b.size * b.size : Nat) < cur.length) ∧ ∃ d ∈ directions,
              b.inBounds (r + d.1) (c + d.2) ∧ (r + d.1, c + d.2) ∉ visited ∧
              w ∈ Game.bdsDfs b t fuel (r + d.1) (c + d.2)
                (cur ++ [b.letter (r + d.1) (c + d.2)]) ((r + d.1, c + d.2) :: visited))))
    ∧ (∀ (b : Board) (t : TrieNode) (fuel : Nat) (r c : Int) (cur : List Char)
        (visited : List (Int × Int)) (w : List Char),
      w ∈ Game.ddsDfs b t (fuel + 1) r c cur visited ↔
        (TrieDictionary.is_prefix t cur = true ∧
          ((SHORT < cur.length ∧ TrieDictionary.contains t cur = true ∧ w = cur)
            ∨ ∃ d ∈ directions,
                b.inBounds (r + d.1) (c + d.2) ∧ (r + d.1, c + d.2) ∉ visited ∧
                w ∈ Game.ddsDfs b t fuel (r + d.1) (c + d.2)
                  (cur ++ [b.letter (r + d.1) (c + d.2)]) ((r + d.1, c + d.2) :: visited))))
    ∧ (['c', 'a', 't', 's'] ∈ Game.dictionary_driven_search catsBoard overlapDict
        ∧ ['c', 'a', 's', 't'] ∈ Game.dictionary_driven_search catsBoard overlapDict) := by
  refine ⟨?_, ?_, by decide⟩
  · intro b t fuel r c cur visited w
    simp only [Game.bdsDfs, List.mem_append, List.mem_flatMap,
      mem_ite_nil_right, mem_ite_nil_left, List.mem_singleton]
    tauto
  · intro b t fuel r c cur visited w
    simp only [Game.ddsDfs, List.mem_flatMap, mem_ite_nil_right,
      mem_ite_nil_left, List.mem_append, List.mem_singleton]
    constructor
    · rintro ⟨hnp, h⟩
      have hp : TrieDictionary.is_prefix t cur = true := by
        by_contra hcon
        exact hnp (by simpa using hcon)
      rcases h with h | h
      · exact ⟨hp, Or.inl (by tauto)⟩
      · exact ⟨hp, Or.inr (by tauto)⟩
    · rintro ⟨hp, h⟩
      refine ⟨by simp [hp], ?_⟩
      rcases h with h | h
      · exact Or.inl (by tauto)
      · exact Or.inr (by tauto)

/-! ### Lexicographic order on words -/

theorem lexLt_irrefl (u : List Char) : lexLt u u = false := by
  induction u with
  | nil => rfl
  | cons x xs ih => simp [lexLt, ih]

theorem lexLt_asymm : ∀ u v : List Char, lexLt u v = true → lexLt v u = false := by
  intro u
  induction u with
  | nil => intro v _; cases v <;> rfl
  | cons x xs ih =>
      intro v h
      cases v with
      | nil => exact absurd h (by simp [lexLt])
      | cons y ys =>
          simp only [lexLt, Bool.or_eq_true, Bool.and_eq_true, decide_eq_true_eq] at h
          rcases h with h | ⟨rfl, h⟩
          · simp only [lexLt, Bool.or_eq_false_iff, Bool.and_eq_false_iff,
              decide_eq_false_iff_not]
            exact ⟨lt_asymm h, Or.inl (ne_of_gt h)⟩
          · simp [lexLt, lt_irrefl, ih ys h]

theorem lexLt_append_cons (pre : List Char) (c : Char) (s : List Char) :
    lexLt pre (pre ++ c :: s) = true := by
  induction pre with
  | nil => rfl
  | cons x xs ih => simp [lexLt, ih]

theorem lexLt_append_lt (a b : Char) (hab : a < b) :
    ∀ (pre u v : List Char), lexLt (pre ++ a :: u) (pre ++ b :: v) = true := by
  intro pre
  induction pre with
  | nil => intro u v; simp [lexLt, hab]
  | cons x xs ih => intro u v; simp [lexLt, ih]

theorem lexLt_of_prefix_ne (u v : List Char) (hp : u <+: v) (hne : u ≠ v) :
    lexLt u v = true := by
  obtain ⟨t, ht⟩ := hp
  cases t with
  | nil => rw [List.append_nil] at ht; exact absurd ht hne
  | cons c s => rw [← ht]; exact lexLt_append_cons u c s

/-! ### The sort in `__iter__` -/

namespace TrieDictionary

theorem insChild_perm (p : Char × TrieNode) :
    ∀ l : List (Char × TrieNode), List.Perm (insChild p l) (p :: l) := by
  intro l
  induction l with
  | nil => rfl
  | cons q qs ih =>
      rw [insChild]
      split_ifs with h
      · rfl
      · exact (List.Perm.cons q ih).trans (List.Perm.swap p q qs)

theorem sortChildren_perm : ∀ l : List (Char × TrieNode),
    List.Perm (sortChildren l) l := by
  intro l
  induction l with
  | nil => rfl
  | cons p ps ih => exact (insChild_perm p (sortChildren ps)).trans (ih.cons p)

theorem mem_sortChildren (q : Char × TrieNode) (l : List (Char × TrieNode)) :
    q ∈ sortChildren l ↔ q ∈ l :=
  (sortChildren_perm l).mem_iff

theorem insChild_sorted (p : Char × TrieNode) :
    ∀ l : List (Char × TrieNode),
      List.Pairwise (fun x y : Char × TrieNode => x.1 ≤ y.1) l →
      List.Pairwise (fun x y : Char × TrieNode => x.1 ≤ y.1) (insChild p l) := by
  intro l
  induction l with
  | nil => intro _; simp [insChild]
  | cons q qs ih =>
      intro hs
      rw [List.pairwise_cons] at hs
      obtain ⟨hq, hqs⟩ := hs
      rw [insChild]
      split_ifs with h
      · rw [List.pairwise_cons]
        refine ⟨?_, List.pairwise_cons.mpr ⟨hq, hqs⟩⟩
        intro y hy
        rcases List.mem_cons.mp hy with rfl | hy'
        · exact h
        · exact le_trans h (hq y hy')
      · rw [List.pairwise_cons]
        refine ⟨?_, ih hqs⟩
        intro y hy
        have := (insChild_perm p qs).mem_iff.mp hy
        rcases List.mem_cons.mp this with rfl | hy'
        · exact le_of_not_le h
        · exact hq y hy'

theorem sortChildren_sorted : ∀ l : List (Char × TrieNode),
    List.Pairwise (fun x y : Char × TrieNode => x.1 ≤ y.1) (sortChildren l) := by
  intro l
  induction l with
  | nil => simp [sortChildren]
  | cons p ps ih => exact insChild_sorted p (sortChildren ps) ih

theorem sortChildren_strict (l : List (Char × TrieNode))
    (hnd : (l.map Prod.fst).Nodup) :
    List.Pairwise (fun x y : Char × TrieNode => x.1 < y.1) (sortChildren l) := by
  have hnd' : ((sortChildren l).map Prod.fst).Nodup :=
    (((sortChildren_perm l).map Prod.fst).nodup_iff).mpr hnd
  have hne : List.Pairwise (fun x y : Char × TrieNode => x.1 ≠ y.1) (sortChildren l) :=
    (List.pairwise_map).mp hnd'
  have := (sortChildren_sorted l).and hne
  exact this.imp (fun h => lt_of_le_of_ne h.1 h.2)

/-! ### Trie well-formedness -/

theorem lookup_mem : ∀ (cs : List (Char × TrieNode)) (c : Char) (t : TrieNode),
    cs.lookup c = some t → (c, t) ∈ cs := by
  intro cs
  induction cs with
  | nil => intro c t h; exact absurd h (by simp)
  | cons p ps ih =>
      intro c t h
      obtain ⟨k, t'⟩ := p
      rw [lookup_cons] at h
      split_ifs at h with hck
      · subst hck
        injection h with h
        subst h
        exact List.mem_cons_self _ _
      · exact List.mem_cons_of_mem _ (ih c t h)

theorem mem_lookup : ∀ (cs : List (Char × TrieNode)) (c : Char) (t : TrieNode),
    (cs.map Prod.fst).Nodup → (c, t) ∈ cs → cs.lookup c = some t := by
  intro cs
  induction cs with
  | nil => intro c t _ h; exact absurd h (by simp)
  | cons p ps ih =>
      intro c t hnd hm
      obtain ⟨k, t'⟩ := p
      rw [List.map_cons, List.nodup_cons] at hnd
      obtain ⟨hk, hnd'⟩ := hnd
      rw [lookup_cons]
      rcases List.mem_cons.mp hm with heq | hm'
      · rw [Prod.mk.injEq] at heq
        obtain ⟨rfl, rfl⟩ := heq
        rw [if_pos rfl]
      · split_ifs with hck
        · subst hck
          exact absurd (List.mem_map_of_mem Prod.fst hm') hk
        · exact ih c t hnd' hm'

theorem WF_node (w : Bool) (cs : List (Char × TrieNode)) :
    WF (.node w cs) ↔ (cs.map Prod.fst).Nodup ∧ WFL cs := by
  simp [WF]

theorem WFL_iff : ∀ cs : List (Char × TrieNode),
    WFL cs ↔ ∀ p ∈ cs, WF p.2 := by
  intro cs
  induction cs with
  | nil => simp [WFL]
  | cons p ps ih =>
      obtain ⟨c, t⟩ := p
      rw [show WFL ((c, t) :: ps) = (WF t ∧ WFL ps) by simp [WFL]]
      rw [ih]
      constructor
      · rintro ⟨h1, h2⟩ q hq
        rcases List.mem_cons.mp hq with rfl | hq'
        · exact h1
        · exact h2 q hq'
      · intro h
        exact ⟨h (c, t) (List.mem_cons_self _ _),
          fun q hq => h q (List.mem_cons_of_mem _ hq)⟩

theorem WF_empty : WF TrieNode.empty := by
  rw [TrieNode.empty, WF_node]
  exact ⟨by simp, by simp [WFL]⟩

theorem lookup_eq_none_iff : ∀ (cs : List (Char × TrieNode)) (c : Char),
    cs.lookup c = none ↔ c ∉ cs.map Prod.fst := by
  intro cs
  induction cs with
  | nil => simp
  | cons p ps ih =>
      intro c
      obtain ⟨k, t⟩ := p
      rw [lookup_cons]
      split_ifs with hck
      · subst hck; simp
      · rw [ih]
        simp [hck]

theorem setChild_keys_update (cs : List (Char × TrieNode)) (c : Char)
    (t : TrieNode) (h : c ∈ cs.map Prod.fst) :
    (TrieNode.setChild cs c t).map Prod.fst = cs.map Prod.fst := by
  induction cs with
  | nil => simp at h
  | cons p ps ih =>
      obtain ⟨k, t'⟩ := p
      rw [TrieNode.setChild]
      split_ifs with hk
      · subst hk; simp
      · rw [List.map_cons, List.map_cons, ih]
        rw [List.map_cons, List.mem_cons] at h
        rcases h with h | h
        · exact absurd h.symm hk
        · exact h

theorem setChild_keys_append (cs : List (Char × TrieNode)) (c : Char)
    (t : TrieNode) (h : c ∉ cs.map Prod.fst) :
    (TrieNode.setChild cs c t).map Prod.fst = cs.map Prod.fst ++ [c] := by
  induction cs with
  | nil => simp [TrieNode.setChild]
  | cons p ps ih =>
      obtain ⟨k, t'⟩ := p
      rw [List.map_cons, List.mem_cons] at h
      push_neg at h
      obtain ⟨h1, h2⟩ := h
      rw [TrieNode.setChild, if_neg (fun e => h1 (e.symm)), List.map_cons, ih h2]
      rfl

theorem setChild_WFL : ∀ (cs : List (Char × TrieNode)) (c : Char) (t : TrieNode),
    WFL cs → WF t → WFL (TrieNode.setChild cs c t) := by
  intro cs
  induction cs with
  | nil =>
      intro c t _ ht
      rw [TrieNode.setChild, WFL_iff]
      intro p hp
      rw [List.mem_singleton] at hp
      subst hp
      exact ht
  | cons q qs ih =>
      intro c t hw ht
      obtain ⟨k, t'⟩ := q
      have hwf := (WFL_iff _).mp hw
      rw [TrieNode.setChild]
      split_ifs with hk
      · rw [WFL_iff]
        intro p hp
        rcases List.mem_cons.mp hp with rfl | hp'
        · exact ht
        · exact hwf p (List.mem_cons_of_mem _ hp')
      · rw [WFL_iff]
        intro p hp
        rcases List.mem_cons.mp hp with rfl | hp'
        · exact hwf (k, t') (List.mem_cons_self _ _)
        · have hrec := ih c t
            ((WFL_iff qs).mpr (fun q hq => hwf q (List.mem_cons_of_mem _ hq))) ht
          exact (WFL_iff _).mp hrec p hp'

theorem insert_WF : ∀ (u : List Char) (t : TrieNode), WF t → WF (t.insert u) := by
  intro u
  induction u with
  | nil =>
      intro t hw
      obtain ⟨w, cs⟩ := t
      rw [TrieNode.insert]
      rw [WF_node] at hw ⊢
      exact hw
  | cons c rest ih =>
      intro t hw
      obtain ⟨w, cs⟩ := t
      rw [WF_node] at hw
      obtain ⟨hnd, hwl⟩ := hw
      rw [TrieNode.insert, WF_node]
      have hchild : WF (match cs.lookup c with
          | some t => t
          | none => TrieNode.empty) := by
        cases hl : cs.lookup c with
        | none => exact WF_empty
        | some t' => exact (WFL_iff cs).mp hwl _ (lookup_mem cs c t' hl)
      constructor
      · by_cases hc : c ∈ cs.map Prod.fst
        · rw [setChild_keys_update cs c _ hc]
          exact hnd
        · rw [setChild_keys_append cs c _ hc]
          simp only [List.nodup_append, List.nodup_singleton]
          exact ⟨hnd, by simp, by simpa using hc⟩
      · exact setChild_WFL cs c _ hwl (ih _ hchild)

theorem load_WF (lines : List (List Char)) : WF (load_dictionary lines) := by
  rw [load_dictionary]
  have : ∀ (acc : TrieNode), WF acc →
      WF (lines.foldl (fun t line => t.insert (pyLower (pyStrip line))) acc) := by
    induction lines with
    | nil => intro acc h; exact h
    | cons l ls ih => intro acc h; exact ih _ (insert_WF _ acc h)
  exact this TrieNode.empty WF_empty

/-! ### Enumeration order -/

theorem height_pos (t : TrieNode) : 1 ≤ height t := by
  obtain ⟨w, cs⟩ := t
  simp [height]

theorem height_child_le : ∀ (cs : List (Char × TrieNode)) (p : Char × TrieNode),
    p ∈ cs → height p.2 ≤ heightL cs := by
  intro cs
  induction cs with
  | nil => intro p h; exact absurd h (by simp)
  | cons q qs ih =>
      intro p h
      obtain ⟨k, t⟩ := q
      rw [show heightL ((k, t) :: qs) = max (height t) (heightL qs) by simp [heightL]]
      rcases List.mem_cons.mp h with rfl | h'
      · exact le_max_left _ _
      · exact le_trans (ih p h') (le_max_right _ _)

theorem enumAux_fuel : ∀ (fuel : Nat) (t : TrieNode) (pre : List Char) (fuel' : Nat),
    height t ≤ fuel → height t ≤ fuel' → enumAux fuel t pre = enumAux fuel' t pre := by
  intro fuel
  induction fuel using Nat.strong_induction_on with
  | _ fuel ih =>
      intro t pre fuel' hf hf'
      obtain ⟨w, cs⟩ := t
      have hh : height (TrieNode.node w cs) = heightL cs + 1 := by simp [height]
      rw [hh] at hf hf'
      cases fuel with
      | zero => omega
      | succ f =>
          cases fuel' with
          | zero => omega
          | succ f' =>
              simp only [enumAux, TrieNode.children, TrieNode.flag]
              congr 1
              apply flatMap_congrOn
              intro p hp
              have hple : height p.2 ≤ heightL cs :=
                height_child_le cs p ((mem_sortChildren p _).mp hp)
              exact ih f (by omega) p.2 _ f' (by omega) (by omega)

theorem mem_enumAux : ∀ (fuel : Nat) (t : TrieNode) (pre w : List Char),
    WF t → height t ≤ fuel →
    (w ∈ enumAux fuel t pre ↔ ∃ s, w = pre ++ s ∧ containsRaw t s = true) := by
  intro fuel
  induction fuel with
  | zero =>
      intro t pre w _ hf
      exact absurd hf (by have := height_pos t; omega)
  | succ f ih =>
      intro t pre w hwf hf
      obtain ⟨fl, cs⟩ := t
      rw [WF_node] at hwf
      obtain ⟨hnd, hwl⟩ := hwf
      have hfle : heightL cs ≤ f := by
        have hh : height (TrieNode.node fl cs) = heightL cs + 1 := by simp [height]
        omega
      simp only [enumAux, List.mem_append, List.mem_flatMap,
        TrieNode.children, TrieNode.flag]
      constructor
      · rintro (h1 | ⟨p, hp, hmem⟩)
        · split_ifs at h1 with hfl
          · rw [List.mem_singleton] at h1
            subst h1
            exact ⟨[], by simp, by rw [containsRaw_nil]; exact hfl⟩
          · simp at h1
        · have hpcs := (mem_sortChildren p cs).mp hp
          have hwfp : WF p.2 := (WFL_iff cs).mp hwl p hpcs
          have hhp : height p.2 ≤ f := le_trans (height_child_le cs p hpcs) hfle
          obtain ⟨s, rfl, hcr⟩ := (ih p.2 _ w hwfp hhp).mp hmem
          refine ⟨p.1 :: s, by simp, ?_⟩
          rw [containsRaw_cons]
          rw [show (TrieNode.node fl cs).children = cs from rfl]
          rw [mem_lookup cs p.1 p.2 hnd hpcs]
          exact hcr
      · rintro ⟨s, rfl, hcr⟩
        cases s with
        | nil =>
            left
            rw [containsRaw_nil] at hcr
            rw [show TrieNode.flag (TrieNode.node fl cs) = fl from rfl] at hcr
            rw [if_pos hcr]
            simp
        | cons c s' =>
            right
            rw [containsRaw_cons] at hcr
            cases hl : (TrieNode.node fl cs).children.lookup c with
            | none => rw [hl] at hcr; exact absurd hcr (by simp)
            | some t' =>
                rw [hl] at hcr
                rw [show (TrieNode.node fl cs).children = cs from rfl] at hl
                have hmemt : (c, t') ∈ cs := lookup_mem cs c t' hl
                refine ⟨(c, t'), (mem_sortChildren _ _).mpr hmemt, ?_⟩
                refine ((ih t' _ _ ((WFL_iff cs).mp hwl _ hmemt)
                  (le_trans (height_child_le cs _ hmemt) hfle)).mpr ⟨s', ?_, hcr⟩)
                simp

theorem enumAux_sorted : ∀ (fuel : Nat) (t : TrieNode) (pre : List Char),
    WF t → height t ≤ fuel →
    List.Pairwise (fun u v => lexLt u v = true) (enumAux fuel t pre) := by
  intro fuel
  induction fuel with
  | zero =>
      intro t pre _ hf
      exact absurd hf (by have := height_pos t; omega)
  | succ f ih =>
      intro t pre hwf hf
      obtain ⟨fl, cs⟩ := t
      rw [WF_node] at hwf
      obtain ⟨hnd, hwl⟩ := hwf
      have hfle : heightL cs ≤ f := by
        have hh : height (TrieNode.node fl cs) = heightL cs + 1 := by simp [height]
        omega
      have hmemf : ∀ p ∈ sortChildren cs, WF p.2 ∧ height p.2 ≤ f := fun p hp =>
        ⟨(WFL_iff cs).mp hwl p ((mem_sortChildren p cs).mp hp),
         le_trans (height_child_le cs p ((mem_sortChildren p cs).mp hp)) hfle⟩
      have flat : ∀ cs' : List (Char × TrieNode),
          (∀ p ∈ cs', WF p.2 ∧ height p.2 ≤ f) →
          List.Pairwise (fun x y : Char × TrieNode => x.1 < y.1) cs' →
          List.Pairwise (fun u v => lexLt u v = true)
            (cs'.flatMap (fun p => enumAux f p.2 (pre ++ [p.1]))) := by
        intro cs'
        induction cs' with
        | nil => intro _ _; simp
        | cons p ps ihcs =>
            intro hmem hstrict
            rw [List.pairwise_cons] at hstrict
            obtain ⟨hplt, hps⟩ := hstrict
            rw [List.flatMap_cons, List.pairwise_append]
            refine ⟨ih p.2 _ (hmem p (List.mem_cons_self _ _)).1
                (hmem p (List.mem_cons_self _ _)).2,
              ihcs (fun q hq => hmem q (List.mem_cons_of_mem _ hq)) hps, ?_⟩
            intro w₁ h₁ w₂ h₂
            rw [List.mem_flatMap] at h₂
            obtain ⟨q, hq, hq2⟩ := h₂
            obtain ⟨s₁, rfl, -⟩ := (mem_enumAux f p.2 _ _
              (hmem p (List.mem_cons_self _ _)).1
              (hmem p (List.mem_cons_self _ _)).2).mp h₁
            obtain ⟨s₂, rfl, -⟩ := (mem_enumAux f q.2 _ _
              (hmem q (List.mem_cons_of_mem _ hq)).1
              (hmem q (List.mem_cons_of_mem _ hq)).2).mp hq2
            rw [List.append_assoc, List.append_assoc]
            exact lexLt_append_lt p.1 q.1 (hplt q hq) pre s₁ s₂
      simp only [enumAux, TrieNode.children, TrieNode.flag]
      rw [List.pairwise_append]
      refine ⟨by split_ifs <;> simp, flat _ hmemf (sortChildren_strict cs hnd), ?_⟩
      intro w₁ h₁ w₂ h₂
      have hw₁ : w₁ = pre := by
        split_ifs at h₁ with hfl
        · simpa using h₁
        · simp at h₁
      rw [hw₁]
      rw [List.mem_flatMap] at h₂
      obtain ⟨q, hq, hq2⟩ := h₂
      obtain ⟨s₂, rfl, -⟩ := (mem_enumAux f q.2 _ _ (hmemf q hq).1 (hmemf q hq).2).mp hq2
      rw [List.append_assoc]
      exact lexLt_append_cons pre q.1 s₂

end TrieDictionary

/-- C5: enumeration yields the stored words in strictly increasing
lexicographic order with no duplicates; the set of yielded words is exactly
the set of lowercased (stripped) input lines; and a word is always yielded
before any stored proper extension of it. -/
theorem claim_C5 (lines : List (List Char)) :
    List.Pairwise (fun u v => lexLt u v = true)
        (TrieDictionary.enum (TrieDictionary.load_dictionary lines))
    ∧ (TrieDictionary.enum (TrieDictionary.load_dictionary lines)).Nodup
    ∧ (∀ w, w ∈ TrieDictionary.enum (TrieDictionary.load_dictionary lines)
        ↔ ∃ line ∈ lines, w = pyLower (pyStrip line))
    ∧ (∀ i j : Fin (TrieDictionary.enum (TrieDictionary.load_dictionary lines)).length,
        (TrieDictionary.enum (TrieDictionary.load_dictionary lines)).get i <+:
          (TrieDictionary.enum (TrieDictionary.load_dictionary lines)).get j →
        (TrieDictionary.enum (TrieDictionary.load_dictionary lines)).get i ≠
          (TrieDictionary.enum (TrieDictionary.load_dictionary lines)).get j →
        i < j) := by
  have hwf := TrieDictionary.load_WF lines
  have hsorted : List.Pairwise (fun u v => lexLt u v = true)
      (TrieDictionary.enum (TrieDictionary.load_dictionary lines)) := by
    rw [TrieDictionary.enum]
    exact TrieDictionary.enumAux_sorted _ _ _ hwf le_rfl
  refine ⟨hsorted, ?_, ?_, ?_⟩
  · exact List.Pairwise.imp
      (fun h heq => by rw [heq, lexLt_irrefl] at h; exact absurd h (by simp)) hsorted
  · intro w
    rw [TrieDictionary.enum,
      TrieDictionary.mem_enumAux _ _ _ _ hwf le_rfl]
    rw [show (∃ s, w = [] ++ s
        ∧ TrieDictionary.containsRaw (TrieDictionary.load_dictionary lines) s = true)
      ↔ TrieDictionary.containsRaw (TrieDictionary.load_dictionary lines) w = true by
        constructor
        · rintro ⟨s, rfl, h⟩; simpa using h
        · intro h; exact ⟨w, by simp, h⟩]
    exact TrieDictionary.containsRaw_load lines w
  · intro i j hpre hne
    rcases lt_trichotomy i j with h | h | h
    · exact h
    · exact absurd (by rw [h]) hne
    · have h1 := (List.pairwise_iff_get.mp hsorted) j i h
      have h2 := lexLt_of_prefix_ne _ _ hpre hne
      rw [lexLt_asymm _ _ h2] at h1
      exact absurd h1 (by simp)

end Boggle
